import Mathlib

/-!
Shallow embedding of the ESG Sentinel backend (`app/backend/main.py`):
the keyword-family matcher, the evidence locator `find_evidence`, the
coverage / parse-success metrics and the confidence heuristic of the
`analyze_loan` endpoint.  Python strings are modelled as `List Char`,
Python `round` as round-half-to-even on `ℚ`, and the per-page decode
outcome (text extracted, or an exception swallowed by
`safe_extract_pages`) as `Option (List Char)`.
-/

namespace ESG

/-- A Python string, as a list of characters. -/
abbrev Str := List Char

/-- Model of `str.lower()` (character-wise case folding). -/
def pyLower (s : Str) : Str := s.map Char.toLower

/-- Model of `str.strip()`: drop whitespace from both ends. -/
def pyStrip (s : Str) : Str :=
  ((s.dropWhile Char.isWhitespace).reverse.dropWhile Char.isWhitespace).reverse

/-- Model of `"\n".join(pages)`. -/
def pyJoin : List Str → Str
  | [] => []
  | [t] => t
  | t :: ts => t ++ '\n' :: pyJoin ts

/-- Whether `kw` occurs in `hay` at position `i`. -/
def occursAt (hay kw : Str) (i : Nat) : Bool := kw.isPrefixOf (hay.drop i)

/-- Linear search used by `pyFind`: try positions `i, i+1, ...` while fuel lasts. -/
def pyFindAux (hay kw : Str) : Nat → Nat → Option Nat
  | 0, _ => none
  | fuel + 1, i => if occursAt hay kw i then some i else pyFindAux hay kw fuel (i + 1)

/-- Model of Python `hay.find(kw, start)`: the least position `i ≥ start`
where `kw` occurs in `hay` (`none` for Python's `-1`). -/
def pyFind (hay kw : Str) (start : Nat) : Option Nat :=
  pyFindAux hay kw (hay.length + 1 - start) start

/-- Model of Python `kw in hay`. -/
def pyIn (kw hay : Str) : Bool := (pyFind hay kw 0).isSome

/-- Model of Python slicing `s[a:b]` (for the clamped bounds used here). -/
def pySlice (s : Str) (a b : Nat) : Str := (s.take b).drop a

/-- Model of `.replace("\n", " ")`. -/
def pyReplaceNL (s : Str) : Str := s.map (fun c => if c = '\n' then ' ' else c)

/-- Snippet construction of `find_evidence`: slice the original-case text
around the occurrence, replace newlines by spaces, and strip. -/
def mkSnippet (text kw : Str) (window idx : Nat) : Str :=
  pyStrip (pyReplaceNL (pySlice text (idx - window) (min text.length (idx + kw.length + window))))

/-- One evidence entry `{keyword, page, snippet}` emitted by `find_evidence`. -/
structure Evidence where
  keyword : Str
  page : Nat
  snippet : Str
deriving DecidableEq

/-- The evidence entry for the occurrence of `kw` at offset `idx` on page `pi` (0-based). -/
def mkEntry (text kw : Str) (window pi idx : Nat) : Evidence :=
  ⟨kw, pi + 1, mkSnippet text kw window idx⟩

/-- The `while True` occurrence scan of `find_evidence`, returning the offsets it
visits: find the next occurrence from `start`, then resume at its end.  The
fuel argument only forces termination; `low.length + 1` is always enough for a
nonempty keyword. -/
def scanOccs (low kw : Str) : Nat → Nat → List Nat
  | 0, _ => []
  | fuel + 1, start =>
    match pyFind low kw start with
    | none => []
    | some idx => idx :: scanOccs low kw fuel (idx + kw.length)

/-- All occurrence offsets of `kw` in `low` from `start` on, non-overlapping,
each search resuming at the previous match's end. -/
def occsFrom (low kw : Str) (start : Nat) : List Nat :=
  scanOccs low kw (low.length + 1) start

/-- The inner `while` loop of `find_evidence`, appending one entry per
occurrence to the running evidence accumulator. -/
def scanKwAcc (text low kw : Str) (window pi : Nat) : Nat → Nat → List Evidence → List Evidence
  | 0, _, acc => acc
  | fuel + 1, start, acc =>
    match pyFind low kw start with
    | none => acc
    | some idx =>
      scanKwAcc text low kw window pi fuel (idx + kw.length)
        (acc ++ [mkEntry text kw window pi idx])

/-- Embedding of `find_evidence(pages, keywords, window)`: early return on an
empty keyword list, page loop skipping pages whose lowered text strips to
empty, keyword loop, occurrence loop appending to one global accumulator, and
the final `evidence[:25]` cap. -/
def find_evidence (ps : List Str) (keywords : List Str) (window : Nat) : List Evidence :=
  if keywords.isEmpty then []
  else
    (ps.enum.foldl
      (fun acc pt =>
        let low := pyLower pt.2
        if (pyStrip low).isEmpty then acc
        else
          keywords.foldl
            (fun acc2 kw => scanKwAcc pt.2 low kw window pt.1 (low.length + 1) 0 acc2)
            acc)
      []).take 25

/-- Declarative form of the spec's scan order: the fully generated evidence
list, page index ascending, then keyword in the order of the given keyword
list, then occurrence position ascending, with no cap applied. -/
def evidenceOrdered (ps : List Str) (keywords : List Str) (window : Nat) : List Evidence :=
  ps.enum.flatMap (fun pt =>
    let low := pyLower pt.2
    if (pyStrip low).isEmpty then []
    else keywords.flatMap (fun kw => (occsFrom low kw 0).map (mkEntry pt.2 kw window pt.1)))

/-- Characters of a Lean string literal, as a Python string model. -/
def chars (s : String) : Str := s.data

/-- Keyword family `kw_carbon` of `analyze_loan`. -/
def kw_carbon : List Str :=
  [chars "carbon", chars "emission", chars "ghg", chars "scope 1", chars "scope 2",
   chars "decarbon"]

/-- Keyword family `kw_renew` of `analyze_loan`. -/
def kw_renew : List Str := [chars "renewable", chars "clean energy", chars "green power"]

/-- Keyword family `kw_div` of `analyze_loan`. -/
def kw_div : List Str :=
  [chars "diversity", chars "gender", chars "inclusion", chars "board composition"]

/-- Keyword family `kw_water` of `analyze_loan`. -/
def kw_water : List Str := [chars "water", chars "scarcity"]

/-- Canonical target label of the carbon family. -/
def target_carbon : Str := chars "Scope 1 & 2 Greenhouse Gas Emissions Reduction"

/-- Canonical target label of the renewable-energy family. -/
def target_renew : Str := chars "Renewable Energy Sourcing (%)"

/-- Canonical target label of the diversity family. -/
def target_div : Str := chars "Gender Diversity in Senior Management"

/-- Canonical target label of the water family. -/
def target_water : Str := chars "Water Scarcity Management"

/-- The union of the member keywords of the four fixed families, in catalog
declaration order. -/
def kwAll : List Str := kw_carbon ++ kw_renew ++ kw_div ++ kw_water

/-- A keyword family paired with its canonical target label (spec data model). -/
structure Family where
  label : Str
  kws : List Str

/-- The fixed catalog, in declaration order (spec data model for the four
`kw_*` lists of the code). -/
def catalog : List Family :=
  [⟨target_carbon, kw_carbon⟩, ⟨target_renew, kw_renew⟩, ⟨target_div, kw_div⟩,
   ⟨target_water, kw_water⟩]

/-- Model of `any(k in hay for k in kws)`. -/
def anyIn (kws : List Str) (hay : Str) : Bool := kws.any (fun k => pyIn k hay)

/-- Model of `any(k in l for k in kws)` for list membership. -/
def anyMem (kws : List Str) (l : List Str) : Bool := kws.any (fun k => decide (k ∈ l))

/-- The `found_targets` list built by the four `if any(...)` statements of
`analyze_loan`, before the fallback substitution. -/
def matcherTargets (tl : Str) : List Str :=
  (if anyIn kw_carbon tl then [target_carbon] else []) ++
  (if anyIn kw_renew tl then [target_renew] else []) ++
  (if anyIn kw_div tl then [target_div] else []) ++
  (if anyIn kw_water tl then [target_water] else [])

/-- The `matched_keywords` accumulator built by the same four `if`
statements: each matched family contributes all of its member keywords. -/
def matcherAccum (tl : Str) : List Str :=
  (if anyIn kw_carbon tl then kw_carbon else []) ++
  (if anyIn kw_renew tl then kw_renew else []) ++
  (if anyIn kw_div tl then kw_div else []) ++
  (if anyIn kw_water tl then kw_water else [])

/-- Lexicographic comparison of strings by character code, as Python `<`. -/
def strLt : Str → Str → Bool
  | [], [] => false
  | [], _ :: _ => true
  | _ :: _, [] => false
  | a :: as, b :: bs => if a < b then true else if b < a then false else strLt as bs

/-- Insert a string into a sorted list of strings (helper for `sortStrs`). -/
def insertSorted (x : Str) : List Str → List Str
  | [] => [x]
  | y :: ys => if strLt x y then x :: y :: ys else y :: insertSorted x ys

/-- Sorting of a list of strings in ascending lexicographic order; together
with `List.dedup` this models Python `sorted(set(...))`. -/
def sortStrs (l : List Str) : List Str := l.foldr insertSorted []

/-- Embedding of `safe_extract_pages`: each raw page either yielded text
(`some t`, with Python `None` already folded to `""` by `or ""`), or raised
during extraction (`none`), in which case `""` is appended and the error
counter is incremented. -/
def safe_extract_pages : List (Option Str) → List Str × Nat
  | [] => ([], 0)
  | none :: rs =>
    let p := safe_extract_pages rs
    ([] :: p.1, p.2 + 1)
  | some t :: rs =>
    let p := safe_extract_pages rs
    (t :: p.1, p.2)

/-- Rounding of Python `round(q)`: nearest integer, ties to even. -/
def pyRound (q : ℚ) : ℤ :=
  if q - ⌊q⌋ < 1 / 2 then ⌊q⌋
  else if q - ⌊q⌋ = 1 / 2 then (if ⌊q⌋ % 2 = 0 then ⌊q⌋ else ⌊q⌋ + 1)
  else ⌊q⌋ + 1

/-- Rounding of Python `round(q, 1)`: one decimal digit, ties to even. -/
def pyRound1 (q : ℚ) : ℚ := (pyRound (q * 10) : ℚ) / 10

/-- The `pages` local of `analyze_loan`. -/
def pages (raw : List (Option Str)) : List Str := (safe_extract_pages raw).1

/-- The `page_errors` local of `analyze_loan`, returned as `pages_failed`. -/
def page_errors (raw : List (Option Str)) : Nat := (safe_extract_pages raw).2

/-- The `full_text` local of `analyze_loan`: `"\n".join(pages)`. -/
def full_text (raw : List (Option Str)) : Str := pyJoin (pages raw)

/-- The `text_lower` local of `analyze_loan`. -/
def text_lower (raw : List (Option Str)) : Str := pyLower (full_text raw)

/-- The `found_targets` list of `analyze_loan` as first assigned, before the
fallback block. -/
def found_targets0 (raw : List (Option Str)) : List Str := matcherTargets (text_lower raw)

/-- The `matched_keywords` response field: `sorted(set(matched_keywords))`. -/
def matched_keywords (raw : List (Option Str)) : List Str :=
  sortStrs (matcherAccum (text_lower raw)).dedup

/-- The `evidence` response field: `find_evidence(pages, matched_keywords)`
with the default window of 80. -/
def evidence (raw : List (Option Str)) : List Evidence :=
  find_evidence (pages raw) (matched_keywords raw) 80

/-- The `fallback_mode` response field: set exactly when no target was found. -/
def fallback_mode (raw : List (Option Str)) : Bool := (found_targets0 raw).isEmpty

/-- The `sustainability_targets` response field: the detected targets, or the
fixed three-label fallback list when none was detected. -/
def found_targets (raw : List (Option Str)) : List Str :=
  if (found_targets0 raw).isEmpty then [target_carbon, target_renew, target_div]
  else found_targets0 raw

/-- The `total_pages` local (`pages_total` response field). -/
def total_pages (raw : List (Option Str)) : Nat := (pages raw).length

/-- The `parse_success_pct` response field. -/
def parse_success_pct (raw : List (Option Str)) : ℚ :=
  if total_pages raw ≠ 0 then
    pyRound1 ((((total_pages raw : ℚ) - (page_errors raw : ℚ)) / (total_pages raw : ℚ)) * 100)
  else 0

/-- The `pages_with_text` response field: pages with at least `MIN_CHARS = 40`
characters after stripping. -/
def pages_with_text (raw : List (Option Str)) : Nat :=
  (pages raw).countP (fun t => decide (40 ≤ (pyStrip t).length))

/-- The `coverage_pct` response field. -/
def coverage_pct (raw : List (Option Str)) : ℚ :=
  if total_pages raw ≠ 0 then
    pyRound1 (((pages_with_text raw : ℚ) / (total_pages raw : ℚ)) * 100)
  else 0

/-- The `coverage` local of `analyze_loan` (the unrounded fraction). -/
def coverage (raw : List (Option Str)) : ℚ :=
  if total_pages raw ≠ 0 then (pages_with_text raw : ℚ) / (total_pages raw : ℚ) else 0

/-- The `families_matched` local: one point per family any of whose member
keywords is in `matched_keywords`. -/
def families_matched (raw : List (Option Str)) : Nat :=
  (if anyMem kw_carbon (matched_keywords raw) then 1 else 0) +
  (if anyMem kw_renew (matched_keywords raw) then 1 else 0) +
  (if anyMem kw_div (matched_keywords raw) then 1 else 0) +
  (if anyMem kw_water (matched_keywords raw) then 1 else 0)

/-- The confidence heuristic `min(100, round(coverage*70 + fm*10 + td*5))`
factored over its three inputs. -/
def confScore (c : ℚ) (fm td : Nat) : ℤ :=
  min 100 (pyRound (c * 70 + (fm : ℚ) * 10 + (td : ℚ) * 5))

/-- The `confidence` response field. -/
def confidence (raw : List (Option Str)) : ℤ :=
  confScore (coverage raw) (families_matched raw) (found_targets raw).length

/-- The `keyword_hits` response field. -/
def keyword_hits (raw : List (Option Str)) : Nat := (matched_keywords raw).length

/-- The `text_extracted` response field: `coverage_pct > 0`. -/
def text_extracted (raw : List (Option Str)) : Bool := decide (0 < coverage_pct raw)

/-- Spec-side count of the truly matched families, in the sense of §4.4:
families any of whose member keywords occurs in the case-folded full text. -/
def trueFamilies (tl : Str) : Nat := (catalog.filter (fun fam => anyIn fam.kws tl)).length

/-- Spec-side variant of the full ordered evidence generation in which the
keyword order within a page is catalog declaration order (the order the claim
asserts), rather than the order of the supplied keyword list. -/
def evidenceCatalogOrder (ps : List Str) (matched : List Str) (window : Nat) : List Evidence :=
  evidenceOrdered ps (kwAll.filter (fun k => decide (k ∈ matched))) window

/-- Single-page document matching the carbon family ("carbon") and the
diversity family ("board composition"): "board composition" sorts before
"carbon" lexicographically but follows it in catalog declaration order. -/
def exC1 : List (Option Str) := [some (chars "carbon and board composition")]

/-- Single page that decoded without error but yielded no text. -/
def exEmptyPage : List (Option Str) := [some []]

/-- Single page whose text matches no keyword family. -/
def exNoMatch : List (Option Str) := [some (chars "hello world")]

/-- Single page whose text matches the carbon family. -/
def exMatch : List (Option Str) := [some (chars "our carbon footprint")]

theorem scanKwAcc_eq (text low kw : Str) (window pi : Nat) :
    ∀ fuel start acc, scanKwAcc text low kw window pi fuel start acc =
      acc ++ (scanOccs low kw fuel start).map (mkEntry text kw window pi) := by
  intro fuel
  induction fuel with
  | zero => intro start acc; simp [scanKwAcc, scanOccs]
  | succ n ih =>
    intro start acc
    simp only [scanKwAcc, scanOccs]
    cases pyFind low kw start with
    | none => simp
    | some idx => simp [ih]

theorem foldl_step_eq {α β : Type} (f : List β → α → List β) (g : α → List β)
    (hf : ∀ a x, f a x = a ++ g x) :
    ∀ (l : List α) (acc : List β), l.foldl f acc = acc ++ l.flatMap g := by
  intro l
  induction l with
  | nil => intro acc; simp
  | cons x t ih =>
    intro acc
    rw [List.foldl_cons, hf, ih, List.flatMap_cons, List.append_assoc]

theorem foldl_kws (text low : Str) (window pi : Nat) (kws : List Str) (acc : List Evidence) :
    kws.foldl (fun acc2 kw => scanKwAcc text low kw window pi (low.length + 1) 0 acc2) acc =
      acc ++ kws.flatMap (fun kw => (occsFrom low kw 0).map (mkEntry text kw window pi)) := by
  exact foldl_step_eq _ _ (fun a kw => scanKwAcc_eq text low kw window pi (low.length + 1) 0 a) kws acc

theorem foldl_pages (keywords : List Str) (window : Nat) (pe : List (Nat × Str))
    (acc : List Evidence) :
    pe.foldl
      (fun acc pt =>
        let low := pyLower pt.2
        if (pyStrip low).isEmpty then acc
        else
          keywords.foldl
            (fun acc2 kw => scanKwAcc pt.2 low kw window pt.1 (low.length + 1) 0 acc2)
            acc)
      acc =
    acc ++ pe.flatMap (fun pt =>
      let low := pyLower pt.2
      if (pyStrip low).isEmpty then []
      else keywords.flatMap (fun kw => (occsFrom low kw 0).map (mkEntry pt.2 kw window pt.1))) := by
  refine foldl_step_eq _ _ (fun a pt => ?_) pe acc
  by_cases h : (pyStrip (pyLower pt.2)).isEmpty
  · simp only [if_pos h, List.append_nil]
  · simp only [if_neg h, foldl_kws]

theorem flatMap_if_nil {α β : Type} (l : List α) (p : α → Prop) [DecidablePred p] :
    (l.flatMap fun x => if p x then ([] : List β) else []) = [] := by
  induction l with
  | nil => rfl
  | cons a t ih => simp [ih]

/-- `find_evidence` is the global 25-cap of the fully generated ordered list. -/
theorem find_evidence_eq_take (ps keywords : List Str) (window : Nat) :
    find_evidence ps keywords window = (evidenceOrdered ps keywords window).take 25 := by
  unfold find_evidence evidenceOrdered
  by_cases h : keywords.isEmpty
  · have hk : keywords = [] := List.isEmpty_iff.mp h
    subst hk
    simp [flatMap_if_nil]
  · rw [if_neg h, foldl_pages, List.nil_append]

theorem pyRound_intCast (n : ℤ) : pyRound (n : ℚ) = n := by
  unfold pyRound
  rw [Int.floor_intCast, sub_self, if_pos (by norm_num)]

theorem le_pyRound (q : ℚ) : ⌊q⌋ ≤ pyRound q := by
  unfold pyRound
  split_ifs <;> omega

theorem pyRound_le_floor_add_one (q : ℚ) : pyRound q ≤ ⌊q⌋ + 1 := by
  unfold pyRound
  split_ifs <;> omega

theorem pyRound_eq_floor_or (q : ℚ) : pyRound q = ⌊q⌋ ∨ pyRound q = ⌊q⌋ + 1 := by
  unfold pyRound
  split_ifs <;> omega

theorem half_le_of_pyRound_eq_add_one {q : ℚ} (h : pyRound q = ⌊q⌋ + 1) :
    1 / 2 ≤ q - ⌊q⌋ := by
  unfold pyRound at h
  split_ifs at h with h1 h2 h3
  · omega
  · omega
  · exact le_of_eq h2.symm
  · exact le_of_lt (lt_of_not_le (fun hle => h1 (lt_of_le_of_ne hle h2)))

theorem le_half_of_pyRound_eq_floor {q : ℚ} (h : pyRound q = ⌊q⌋) :
    q - ⌊q⌋ ≤ 1 / 2 := by
  unfold pyRound at h
  split_ifs at h with h1 h2 h3
  · exact le_of_lt h1
  · exact le_of_eq h2
  · omega
  · omega

theorem pyRound_mono {q r : ℚ} (h : q ≤ r) : pyRound q ≤ pyRound r := by
  rcases lt_or_le ⌊q⌋ ⌊r⌋ with hf | hf
  · calc pyRound q ≤ ⌊q⌋ + 1 := pyRound_le_floor_add_one q
    _ ≤ ⌊r⌋ := by omega
    _ ≤ pyRound r := le_pyRound r
  · have hfe : ⌊q⌋ = ⌊r⌋ := le_antisymm (Int.floor_mono h) hf
    rcases pyRound_eq_floor_or q with hL | hL
    · rw [hL, hfe]
      exact le_pyRound r
    · rcases pyRound_eq_floor_or r with hR | hR
      · have h1 := half_le_of_pyRound_eq_add_one hL
        have h2 := le_half_of_pyRound_eq_floor hR
        have hqr : q = r := by
          have hc : ((⌊q⌋ : ℚ)) = ((⌊r⌋ : ℚ)) := by exact_mod_cast hfe
          linarith
        rw [hqr]
      · rw [hL, hR, hfe]

theorem pyRound_nonneg {q : ℚ} (h : 0 ≤ q) : 0 ≤ pyRound q := by
  have h0 := pyRound_mono (show ((0 : ℤ) : ℚ) ≤ q by push_cast; linarith)
  rwa [pyRound_intCast] at h0

theorem pyRound_le_of_le {q : ℚ} {n : ℤ} (h : q ≤ (n : ℚ)) : pyRound q ≤ n := by
  have h0 := pyRound_mono h
  rwa [pyRound_intCast] at h0

theorem pyRound1_nonneg {q : ℚ} (h : 0 ≤ q) : 0 ≤ pyRound1 q := by
  unfold pyRound1
  apply div_nonneg _ (by norm_num)
  exact_mod_cast pyRound_nonneg (by positivity)

theorem pyRound1_le_100 {q : ℚ} (h : q ≤ 100) : pyRound1 q ≤ 100 := by
  unfold pyRound1
  rw [div_le_iff₀ (by norm_num : (0 : ℚ) < 10)]
  have h1 := pyRound_le_of_le (show q * 10 ≤ ((1000 : ℤ) : ℚ) by push_cast; linarith)
  calc ((pyRound (q * 10)) : ℚ) ≤ ((1000 : ℤ) : ℚ) := by exact_mod_cast h1
  _ = 100 * 10 := by norm_num

theorem pyFindAux_eq_some {hay kw : Str} :
    ∀ {fuel i j : Nat}, pyFindAux hay kw fuel i = some j →
      i ≤ j ∧ j < i + fuel ∧ occursAt hay kw j = true ∧
        ∀ m, i ≤ m → m < j → occursAt hay kw m = false := by
  intro fuel
  induction fuel with
  | zero => intro i j h; simp [pyFindAux] at h
  | succ n ih =>
    intro i j h
    unfold pyFindAux at h
    by_cases hc : occursAt hay kw i = true
    · rw [if_pos hc] at h
      obtain rfl : i = j := by injection h
      exact ⟨le_refl _, by omega, hc, fun m h1 h2 => absurd (lt_of_le_of_lt h1 h2) (lt_irrefl _)⟩
    · rw [if_neg hc] at h
      obtain ⟨h1, h2, h3, h4⟩ := ih h
      refine ⟨by omega, by omega, h3, fun m hm1 hm2 => ?_⟩
      rcases Nat.eq_or_lt_of_le hm1 with rfl | hm1'
      · exact Bool.eq_false_iff.mpr hc
      · exact h4 m hm1' hm2

theorem pyFindAux_eq_none {hay kw : Str} :
    ∀ {fuel i : Nat}, pyFindAux hay kw fuel i = none →
      ∀ m, i ≤ m → m < i + fuel → occursAt hay kw m = false := by
  intro fuel
  induction fuel with
  | zero => intro i _ m h1 h2; omega
  | succ n ih =>
    intro i h m h1 h2
    unfold pyFindAux at h
    by_cases hc : occursAt hay kw i = true
    · rw [if_pos hc] at h; exact absurd h (by simp)
    · rw [if_neg hc] at h
      rcases Nat.eq_or_lt_of_le h1 with rfl | h1'
      · exact Bool.eq_false_iff.mpr hc
      · exact ih h m h1' (by omega)

theorem pyFindAux_isSome {hay kw : Str} {fuel i j : Nat} (h1 : i ≤ j) (h2 : j < i + fuel)
    (h3 : occursAt hay kw j = true) : (pyFindAux hay kw fuel i).isSome = true := by
  cases h : pyFindAux hay kw fuel i with
  | some _ => rfl
  | none => exact absurd (pyFindAux_eq_none h j h1 h2) (by simp [h3])

theorem occursAt_true_iff {hay kw : Str} {i : Nat} :
    occursAt hay kw i = true ↔ kw <+: hay.drop i := by
  unfold occursAt
  exact List.isPrefixOf_iff_prefix

theorem occursAt_lt_length {hay kw : Str} (hk : kw ≠ []) {i : Nat}
    (h : occursAt hay kw i = true) : i < hay.length := by
  have hp := occursAt_true_iff.mp h
  have hlen := hp.length_le
  rw [List.length_drop] at hlen
  have hkpos : 0 < kw.length := List.length_pos.mpr hk
  omega

theorem occursAt_false_of_ge {hay kw : Str} (hk : kw ≠ []) {i : Nat}
    (h : hay.length ≤ i) : occursAt hay kw i = false := by
  cases hc : occursAt hay kw i with
  | false => rfl
  | true => exact absurd (occursAt_lt_length hk hc) (by omega)

/-- Characterization of Python `hay.find(kw, start)` for a nonempty keyword:
it returns `some i` exactly when `i` is the least occurrence position `≥ start`. -/
theorem pyFind_eq_some_iff {hay kw : Str} (hk : kw ≠ []) {start i : Nat} :
    pyFind hay kw start = some i ↔
      start ≤ i ∧ occursAt hay kw i = true ∧
        ∀ j, start ≤ j → j < i → occursAt hay kw j = false := by
  constructor
  · intro h
    obtain ⟨h1, _, h3, h4⟩ := pyFindAux_eq_some h
    exact ⟨h1, h3, h4⟩
  · rintro ⟨h1, h2, h3⟩
    have hi : i < hay.length := occursAt_lt_length hk h2
    have hsome := @pyFindAux_isSome hay kw (hay.length + 1 - start) start i h1 (by omega) h2
    cases h : pyFind hay kw start with
    | none => rw [pyFind] at h; rw [h] at hsome; exact absurd hsome (by simp)
    | some j =>
      obtain ⟨g1, _, g3, g4⟩ := pyFindAux_eq_some h
      have hji : ¬ j < i := fun hji => by rw [h3 j g1 hji] at g3; exact absurd g3 (by simp)
      have hij : ¬ i < j := fun hij => by rw [g4 i h1 hij] at h2; exact absurd h2 (by simp)
      have hije : i = j := by omega
      rw [hije]

/-- Characterization of Python `hay.find(kw, start) == -1` for a nonempty
keyword: no occurrence at or after `start`. -/
theorem pyFind_eq_none_iff {hay kw : Str} (hk : kw ≠ []) {start : Nat} :
    pyFind hay kw start = none ↔ ∀ j, start ≤ j → occursAt hay kw j = false := by
  constructor
  · intro h j hj
    rcases lt_or_le j (start + (hay.length + 1 - start)) with hlt | hge
    · exact pyFindAux_eq_none h j hj hlt
    · refine occursAt_false_of_ge hk ?_
      omega
  · intro h
    cases hc : pyFind hay kw start with
    | none => rfl
    | some j =>
      obtain ⟨g1, _, g3, _⟩ := pyFindAux_eq_some hc
      rw [h j g1] at g3
      exact absurd g3 (by simp)

theorem scanOccs_fuel_stable {low kw : Str} (hk : kw ≠ []) :
    ∀ (fuel start : Nat), low.length + 1 ≤ start + fuel →
      scanOccs low kw fuel start = scanOccs low kw (fuel + 1) start := by
  intro fuel
  induction fuel with
  | zero =>
    intro start hs
    have hnone : pyFind low kw start = none := by
      unfold pyFind
      have h0 : low.length + 1 - start = 0 := by omega
      rw [h0]
      rfl
    simp [scanOccs, hnone]
  | succ n ih =>
    intro start hs
    conv_lhs => rw [scanOccs]
    conv_rhs => rw [scanOccs]
    cases h : pyFind low kw start with
    | none => rfl
    | some idx =>
      obtain ⟨h1, _, _, _⟩ := pyFindAux_eq_some h
      have hkpos : 0 < kw.length := List.length_pos.mpr hk
      show idx :: scanOccs low kw n (idx + kw.length) =
        idx :: scanOccs low kw (n + 1) (idx + kw.length)
      rw [ih (idx + kw.length) (by omega)]

/-- The occurrence scan satisfies the spec's recurrence: find the next
occurrence from `start`; if found, emit it and resume at its end. -/
theorem occsFrom_unfold {low kw : Str} (hk : kw ≠ []) (start : Nat) :
    occsFrom low kw start =
      match pyFind low kw start with
      | none => []
      | some idx => idx :: occsFrom low kw (idx + kw.length) := by
  unfold occsFrom
  conv_lhs => rw [scanOccs]
  cases h : pyFind low kw start with
  | none => rfl
  | some idx =>
    have hkpos : 0 < kw.length := List.length_pos.mpr hk
    show idx :: scanOccs low kw low.length (idx + kw.length) =
      idx :: scanOccs low kw (low.length + 1) (idx + kw.length)
    rw [scanOccs_fuel_stable hk low.length (idx + kw.length) (by omega)]

theorem infix_of_occursAt {hay kw : Str} {i : Nat} (h : occursAt hay kw i = true) :
    kw <:+: hay := by
  obtain ⟨t, ht⟩ := occursAt_true_iff.mp h
  exact ⟨hay.take i, t, by rw [List.append_assoc, ht, List.take_append_drop]⟩

theorem infix_exists_occursAt {hay kw : Str} (h : kw <:+: hay) :
    ∃ i, i + kw.length ≤ hay.length ∧ occursAt hay kw i = true := by
  obtain ⟨s, t, hst⟩ := h
  refine ⟨s.length, ?_, ?_⟩
  · rw [← hst]
    simp [List.length_append]
  · rw [occursAt_true_iff, ← hst, List.append_assoc, List.drop_left]
    exact ⟨t, rfl⟩

theorem pyIn_iff_substring {kw hay : Str} : pyIn kw hay = true ↔ kw <:+: hay := by
  unfold pyIn
  constructor
  · intro h
    cases hc : pyFind hay kw 0 with
    | none => rw [hc] at h; exact absurd h (by simp)
    | some i =>
      obtain ⟨_, _, h3, _⟩ := pyFindAux_eq_some hc
      exact infix_of_occursAt h3
  · intro h
    obtain ⟨i, hi, hocc⟩ := infix_exists_occursAt h
    have := @pyFindAux_isSome hay kw (hay.length + 1 - 0) 0 i (Nat.zero_le i) (by omega) hocc
    exact this

theorem prefix_through_sep {k a b : Str} {c : Char} (hc : c ∉ k) (h : k <+: a ++ c :: b) :
    k <+: a := by
  induction k generalizing a with
  | nil => exact List.nil_prefix
  | cons x xs ih =>
    cases a with
    | nil =>
      obtain ⟨t, ht⟩ := h
      have hx : x = c := by injection ht
      exact absurd (hx ▸ List.mem_cons_self x xs) hc
    | cons y ys =>
      obtain ⟨t, ht⟩ := h
      have h1 : x = y := by injection ht
      have h2 : xs ++ t = ys ++ c :: b := by injection ht
      obtain ⟨t2, ht2⟩ := ih (fun hmem => hc (List.mem_cons_of_mem x hmem)) ⟨t, h2⟩
      exact ⟨t2, by rw [h1, List.cons_append, ht2]⟩

theorem infix_through_sep {k a b : Str} {c : Char} (hk : k ≠ []) (hc : c ∉ k)
    (h : k <:+: a ++ c :: b) : k <:+: a ∨ k <:+: b := by
  induction a with
  | nil =>
    obtain ⟨s, t, hst⟩ := h
    cases s with
    | nil =>
      cases k with
      | nil => exact absurd rfl hk
      | cons x xs =>
        have hx : x = c := by injection hst
        exact absurd (hx ▸ List.mem_cons_self x xs) hc
    | cons d s' =>
      right
      have h2 : s' ++ k ++ t = b := by injection hst
      exact ⟨s', t, h2⟩
  | cons y a' ih =>
    obtain ⟨s, t, hst⟩ := h
    cases s with
    | nil =>
      left
      have h2 : k ++ t = y :: (a' ++ c :: b) := hst
      have hpre : k <+: (y :: a') ++ c :: b := ⟨t, by rw [List.cons_append, h2]⟩
      exact (prefix_through_sep hc hpre).isInfix
    | cons d s' =>
      have h2 : s' ++ k ++ t = a' ++ c :: b := by injection hst
      rcases ih ⟨s', t, h2⟩ with hl | hr
      · exact Or.inl (List.infix_cons hl)
      · exact Or.inr hr

theorem infix_pyJoin {k : Str} (hk : k ≠ []) (hnl : '\n' ∉ k) :
    ∀ ps : List Str, k <:+: pyJoin ps → ∃ p ∈ ps, k <:+: p := by
  intro ps
  induction ps with
  | nil =>
    intro h
    rw [show pyJoin [] = [] from rfl] at h
    obtain ⟨s, t, hst⟩ := h
    rcases List.append_eq_nil.mp (List.append_eq_nil.mp hst).1 with ⟨_, hknil⟩
    exact absurd hknil hk
  | cons p ps' ih =>
    intro h
    cases ps' with
    | nil => exact ⟨p, List.mem_cons_self p [], h⟩
    | cons q rest =>
      rw [show pyJoin (p :: q :: rest) = p ++ '\n' :: pyJoin (q :: rest) from rfl] at h
      rcases infix_through_sep hk hnl h with hl | hr
      · exact ⟨p, List.mem_cons_self p _, hl⟩
      · obtain ⟨p', hp1, hp2⟩ := ih hr
        exact ⟨p', List.mem_cons_of_mem p hp1, hp2⟩

theorem pyLower_pyJoin (ps : List Str) : pyLower (pyJoin ps) = pyJoin (ps.map pyLower) := by
  induction ps with
  | nil => rfl
  | cons t ts ih =>
    cases ts with
    | nil => rfl
    | cons q rest =>
      show pyLower (t ++ '\n' :: pyJoin (q :: rest)) =
        pyLower t ++ '\n' :: pyJoin (pyLower q :: (q :: rest).tail.map pyLower)
      rw [show pyLower (t ++ '\n' :: pyJoin (q :: rest)) =
        pyLower t ++ '\n' :: pyLower (pyJoin (q :: rest)) by simp [pyLower]]
      rw [show pyJoin (pyLower q :: (q :: rest).tail.map pyLower) =
        pyJoin ((q :: rest).map pyLower) from rfl]
      rw [ih]

theorem mem_dropWhile_of_mem {p : Char → Bool} {c : Char} :
    ∀ {l : Str}, c ∈ l → p c = false → c ∈ l.dropWhile p := by
  intro l
  induction l with
  | nil => intro h _; exact absurd h (List.not_mem_nil c)
  | cons x xs ih =>
    intro hc hp
    cases hx : p x with
    | true =>
      rw [List.dropWhile_cons_of_pos hx]
      rcases List.mem_cons.mp hc with rfl | hmem
      · rw [hp] at hx; exact absurd hx (by simp)
      · exact ih hmem hp
    | false =>
      rw [List.dropWhile_cons_of_neg (by simp [hx])]
      exact hc

theorem pyStrip_ne_nil {s : Str} {c : Char} (hc : c ∈ s) (hw : c.isWhitespace = false) :
    pyStrip s ≠ [] := by
  unfold pyStrip
  have h1 : c ∈ s.dropWhile Char.isWhitespace := mem_dropWhile_of_mem hc hw
  have h2 : c ∈ (s.dropWhile Char.isWhitespace).reverse := List.mem_reverse.mpr h1
  have h3 : c ∈ (s.dropWhile Char.isWhitespace).reverse.dropWhile Char.isWhitespace :=
    mem_dropWhile_of_mem h2 hw
  have h4 : c ∈ ((s.dropWhile Char.isWhitespace).reverse.dropWhile Char.isWhitespace).reverse :=
    List.mem_reverse.mpr h3
  exact List.ne_nil_of_mem h4

theorem mem_insertSorted {x a : Str} : ∀ {l : List Str}, a ∈ insertSorted x l ↔ a = x ∨ a ∈ l := by
  intro l
  induction l with
  | nil => simp [insertSorted]
  | cons y ys ih =>
    by_cases h : strLt x y
    · simp [insertSorted, h]
    · simp only [insertSorted, if_neg h, List.mem_cons, ih]
      tauto

theorem mem_sortStrs {a : Str} : ∀ {l : List Str}, a ∈ sortStrs l ↔ a ∈ l := by
  intro l
  induction l with
  | nil => simp [sortStrs]
  | cons x t ih =>
    show a ∈ insertSorted x (sortStrs t) ↔ a ∈ x :: t
    rw [mem_insertSorted, ih, List.mem_cons]

theorem mem_matched_keywords {raw : List (Option Str)} {k : Str} :
    k ∈ matched_keywords raw ↔ k ∈ matcherAccum (text_lower raw) := by
  unfold matched_keywords
  rw [mem_sortStrs, List.mem_dedup]

theorem page_errors_eq_countP (raw : List (Option Str)) :
    page_errors raw = raw.countP (fun r => r.isNone) := by
  unfold page_errors
  induction raw with
  | nil => rfl
  | cons r rs ih =>
    cases r with
    | none => simp [safe_extract_pages, List.countP_cons, ih]
    | some t => simp [safe_extract_pages, List.countP_cons, ih]

theorem pages_length (raw : List (Option Str)) : (pages raw).length = raw.length := by
  unfold pages
  induction raw with
  | nil => rfl
  | cons r rs ih =>
    cases r with
    | none => simp [safe_extract_pages, ih]
    | some t => simp [safe_extract_pages, ih]

theorem page_errors_le (raw : List (Option Str)) : page_errors raw ≤ total_pages raw := by
  rw [page_errors_eq_countP]
  unfold total_pages
  rw [pages_length]
  exact List.countP_le_length _

theorem pages_with_text_le (raw : List (Option Str)) :
    pages_with_text raw ≤ total_pages raw := by
  exact List.countP_le_length _

theorem matcherTargets_eq_nil_iff (tl : Str) :
    matcherTargets tl = [] ↔
      anyIn kw_carbon tl = false ∧ anyIn kw_renew tl = false ∧
        anyIn kw_div tl = false ∧ anyIn kw_water tl = false := by
  unfold matcherTargets
  cases h1 : anyIn kw_carbon tl <;> cases h2 : anyIn kw_renew tl <;>
    cases h3 : anyIn kw_div tl <;> cases h4 : anyIn kw_water tl <;> simp

theorem matcherAccum_eq_nil {tl : Str}
    (h1 : anyIn kw_carbon tl = false) (h2 : anyIn kw_renew tl = false)
    (h3 : anyIn kw_div tl = false) (h4 : anyIn kw_water tl = false) :
    matcherAccum tl = [] := by
  unfold matcherAccum
  rw [h1, h2, h3, h4]
  rfl

theorem matched_keywords_eq_nil {raw : List (Option Str)}
    (h : found_targets0 raw = []) : matched_keywords raw = [] := by
  obtain ⟨h1, h2, h3, h4⟩ := (matcherTargets_eq_nil_iff (text_lower raw)).mp h
  unfold matched_keywords
  rw [matcherAccum_eq_nil h1 h2 h3 h4]
  rfl

theorem evidence_eq_nil {raw : List (Option Str)}
    (h : found_targets0 raw = []) : evidence raw = [] := by
  unfold evidence find_evidence
  rw [matched_keywords_eq_nil h]
  rfl

theorem matcherTargets_catalog (tl : Str) :
    matcherTargets tl =
      (catalog.filter (fun fam => anyIn fam.kws tl)).map (fun fam => fam.label) := by
  cases h1 : anyIn kw_carbon tl <;> cases h2 : anyIn kw_renew tl <;>
    cases h3 : anyIn kw_div tl <;> cases h4 : anyIn kw_water tl <;>
    simp [matcherTargets, catalog, h1, h2, h3, h4]

theorem matcherAccum_catalog (tl : Str) :
    matcherAccum tl =
      (catalog.filter (fun fam => anyIn fam.kws tl)).flatMap (fun fam => fam.kws) := by
  cases h1 : anyIn kw_carbon tl <;> cases h2 : anyIn kw_renew tl <;>
    cases h3 : anyIn kw_div tl <;> cases h4 : anyIn kw_water tl <;>
    simp [matcherAccum, catalog, h1, h2, h3, h4]

theorem families_matched_eq_trueFamilies (raw : List (Option Str)) :
    families_matched raw = trueFamilies (text_lower raw) := by
  cases h1 : anyIn kw_carbon (text_lower raw) <;> cases h2 : anyIn kw_renew (text_lower raw) <;>
    cases h3 : anyIn kw_div (text_lower raw) <;> cases h4 : anyIn kw_water (text_lower raw) <;>
    simp only [families_matched, trueFamilies, matched_keywords, matcherAccum, catalog,
      List.filter_cons, List.filter_nil, h1, h2, h3, h4] <;> decide

theorem matched_sorted_nodup (raw : List (Option Str)) :
    List.Pairwise (fun a b => strLt a b = true) (matched_keywords raw) ∧
      (matched_keywords raw).Nodup := by
  cases h1 : anyIn kw_carbon (text_lower raw) <;> cases h2 : anyIn kw_renew (text_lower raw) <;>
    cases h3 : anyIn kw_div (text_lower raw) <;> cases h4 : anyIn kw_water (text_lower raw) <;>
    simp only [matched_keywords, matcherAccum, h1, h2, h3, h4] <;> exact ⟨by decide, by decide⟩

theorem mem_matcherAccum_iff (tl : Str) (k : Str) :
    k ∈ matcherAccum tl ↔
      (anyIn kw_carbon tl = true ∧ k ∈ kw_carbon) ∨
      (anyIn kw_renew tl = true ∧ k ∈ kw_renew) ∨
      (anyIn kw_div tl = true ∧ k ∈ kw_div) ∨
      (anyIn kw_water tl = true ∧ k ∈ kw_water) := by
  unfold matcherAccum
  cases h1 : anyIn kw_carbon tl <;> cases h2 : anyIn kw_renew tl <;>
    cases h3 : anyIn kw_div tl <;> cases h4 : anyIn kw_water tl <;>
    simp [h1, h2, h3, h4, List.mem_append, or_assoc]

theorem mem_matcherAccum_of_family {tl : Str} {fam : Family} {k : Str}
    (hfam : fam ∈ catalog) (hany : anyIn fam.kws tl = true) (hk : k ∈ fam.kws) :
    k ∈ matcherAccum tl := by
  refine (mem_matcherAccum_iff tl k).mpr ?_
  rcases List.mem_cons.mp hfam with rfl | hfam
  · exact Or.inl ⟨hany, hk⟩
  rcases List.mem_cons.mp hfam with rfl | hfam
  · exact Or.inr (Or.inl ⟨hany, hk⟩)
  rcases List.mem_cons.mp hfam with rfl | hfam
  · exact Or.inr (Or.inr (Or.inl ⟨hany, hk⟩))
  rcases List.mem_cons.mp hfam with rfl | hfam
  · exact Or.inr (Or.inr (Or.inr ⟨hany, hk⟩))
  · exact absurd hfam (List.not_mem_nil fam)

theorem exists_mem_enumFrom {α : Type} {x : α} :
    ∀ {l : List α} (n : Nat), x ∈ l → ∃ i, (i, x) ∈ l.enumFrom n := by
  intro l
  induction l with
  | nil => intro n h; exact absurd h (List.not_mem_nil x)
  | cons y ys ih =>
    intro n h
    rcases List.mem_cons.mp h with rfl | hmem
    · exact ⟨n, List.mem_cons_self _ _⟩
    · obtain ⟨i, hi⟩ := ih (n + 1) hmem
      exact ⟨i, List.mem_cons_of_mem _ hi⟩

theorem exists_mem_enum {α : Type} {x : α} {l : List α} (h : x ∈ l) :
    ∃ i, (i, x) ∈ l.enum := exists_mem_enumFrom 0 h

theorem evidenceOrdered_ne_nil {ps kws : List Str} {text kw : Str} {window : Nat}
    (htext : text ∈ ps) (hstrip : pyStrip (pyLower text) ≠ [])
    (hkw : kw ∈ kws) (hin : pyIn kw (pyLower text) = true) :
    evidenceOrdered ps kws window ≠ [] := by
  obtain ⟨pi, hpi⟩ := exists_mem_enum htext
  cases hfind : pyFind (pyLower text) kw 0 with
  | none => rw [pyIn, hfind] at hin; exact absurd hin (by simp)
  | some idx =>
    have hocc : idx ∈ occsFrom (pyLower text) kw 0 := by
      unfold occsFrom
      rw [scanOccs, hfind]
      exact List.mem_cons_self _ _
    have hentry : mkEntry text kw window pi idx ∈ evidenceOrdered ps kws window := by
      unfold evidenceOrdered
      refine List.mem_flatMap.mpr ⟨(pi, text), hpi, ?_⟩
      rw [if_neg (fun hie => hstrip (List.isEmpty_iff.mp hie))]
      exact List.mem_flatMap.mpr ⟨kw, hkw, List.mem_map_of_mem _ hocc⟩
    exact List.ne_nil_of_mem hentry

theorem pyRound_zero : pyRound 0 = 0 := by
  have h := pyRound_intCast 0
  simpa using h

theorem pyRound1_zero : pyRound1 0 = 0 := by
  unfold pyRound1
  rw [show (0 : ℚ) * 10 = 0 by norm_num, pyRound_zero]
  norm_num

theorem coverage_pct_bounds (raw : List (Option Str)) :
    0 ≤ coverage_pct raw ∧ coverage_pct raw ≤ 100 := by
  unfold coverage_pct
  by_cases h : total_pages raw ≠ 0
  · rw [if_pos h]
    have htpos : (0 : ℚ) < (total_pages raw : ℚ) := by
      exact_mod_cast Nat.pos_of_ne_zero h
    have hle : (pages_with_text raw : ℚ) ≤ (total_pages raw : ℚ) := by
      exact_mod_cast pages_with_text_le raw
    have harg0 : 0 ≤ ((pages_with_text raw : ℚ) / (total_pages raw : ℚ)) * 100 := by positivity
    have hdiv : (pages_with_text raw : ℚ) / (total_pages raw : ℚ) ≤ 1 := by
      rw [div_le_one htpos]; exact hle
    have harg1 : ((pages_with_text raw : ℚ) / (total_pages raw : ℚ)) * 100 ≤ 100 := by linarith
    exact ⟨pyRound1_nonneg harg0, pyRound1_le_100 harg1⟩
  · rw [if_neg h]; norm_num

theorem parse_success_pct_bounds (raw : List (Option Str)) :
    0 ≤ parse_success_pct raw ∧ parse_success_pct raw ≤ 100 := by
  unfold parse_success_pct
  by_cases h : total_pages raw ≠ 0
  · rw [if_pos h]
    have htpos : (0 : ℚ) < (total_pages raw : ℚ) := by
      exact_mod_cast Nat.pos_of_ne_zero h
    have hle : (page_errors raw : ℚ) ≤ (total_pages raw : ℚ) := by
      exact_mod_cast page_errors_le raw
    have he0 : (0 : ℚ) ≤ (page_errors raw : ℚ) := by positivity
    have harg0 : 0 ≤ (((total_pages raw : ℚ) - (page_errors raw : ℚ)) / (total_pages raw : ℚ)) * 100 := by
      have : 0 ≤ ((total_pages raw : ℚ) - (page_errors raw : ℚ)) / (total_pages raw : ℚ) :=
        div_nonneg (by linarith) (le_of_lt htpos)
      linarith
    have hdiv : ((total_pages raw : ℚ) - (page_errors raw : ℚ)) / (total_pages raw : ℚ) ≤ 1 := by
      rw [div_le_one htpos]; linarith
    have harg1 : (((total_pages raw : ℚ) - (page_errors raw : ℚ)) / (total_pages raw : ℚ)) * 100 ≤ 100 := by
      linarith
    exact ⟨pyRound1_nonneg harg0, pyRound1_le_100 harg1⟩
  · rw [if_neg h]; norm_num

theorem coverage_nonneg (raw : List (Option Str)) : 0 ≤ coverage raw := by
  unfold coverage
  by_cases h : total_pages raw ≠ 0
  · rw [if_pos h]; positivity
  · rw [if_neg h]

theorem confScore_nonneg {c : ℚ} {fm td : Nat} (hc : 0 ≤ c) : 0 ≤ confScore c fm td := by
  unfold confScore
  refine le_min (by norm_num) (pyRound_nonneg ?_)
  positivity

theorem confScore_le_100 (c : ℚ) (fm td : Nat) : confScore c fm td ≤ 100 :=
  min_le_left _ _

theorem confScore_mono_cov {c c' : ℚ} (fm td : Nat) (h : c ≤ c') :
    confScore c fm td ≤ confScore c' fm td := by
  unfold confScore
  refine min_le_min (le_refl _) (pyRound_mono ?_)
  have : c * 70 ≤ c' * 70 := by linarith
  linarith

theorem confScore_mono_fm (c : ℚ) {fm fm' : Nat} (td : Nat) (h : fm ≤ fm') :
    confScore c fm td ≤ confScore c fm' td := by
  unfold confScore
  refine min_le_min (le_refl _) (pyRound_mono ?_)
  have hq : (fm : ℚ) ≤ (fm' : ℚ) := by exact_mod_cast h
  have : (fm : ℚ) * 10 ≤ (fm' : ℚ) * 10 := by linarith
  linarith

theorem evidence_length_le (raw : List (Option Str)) : (evidence raw).length ≤ 25 := by
  unfold evidence
  rw [find_evidence_eq_take, List.length_take]
  exact min_le_left _ _

theorem kwAll_props : ∀ k ∈ kwAll, k ≠ [] ∧ '\n' ∉ k ∧ ∃ c ∈ k, c.isWhitespace = false := by
  decide

theorem catalog_kws_sub : ∀ fam ∈ catalog, ∀ k ∈ fam.kws, k ∈ kwAll := by
  decide

theorem mem_kwAll_of_accum {tl : Str} {k : Str} (h : k ∈ matcherAccum tl) : k ∈ kwAll := by
  rcases (mem_matcherAccum_iff tl k).mp h with ⟨_, hk⟩ | ⟨_, hk⟩ | ⟨_, hk⟩ | ⟨_, hk⟩
  · exact catalog_kws_sub ⟨target_carbon, kw_carbon⟩ (by simp [catalog]) k hk
  · exact catalog_kws_sub ⟨target_renew, kw_renew⟩ (by simp [catalog]) k hk
  · exact catalog_kws_sub ⟨target_div, kw_div⟩ (by simp [catalog]) k hk
  · exact catalog_kws_sub ⟨target_water, kw_water⟩ (by simp [catalog]) k hk

/-- C1: the claimed within-page keyword ordering is wrong on the code.  The
code iterates `find_evidence` over `sorted(set(matched_keywords))`, i.e. in
lexicographic order, not in catalog declaration order: on a page containing
"carbon" (catalog position 1) and "board composition" (catalog position 13),
the response lists the "board composition" evidence first, while a
catalog-order generation would list "carbon" first. -/
theorem C1_catalog_order_counterexample :
    evidence exC1 ≠ (evidenceCatalogOrder (pages exC1) (matched_keywords exC1) 80).take 25 := by
  decide

/-- C1 (amended): for every input page list, the evidence list in the
analysis response equals the first 25 entries of the fully generated ordered
list — page index ascending, then keyword in the order of the (sorted)
`matched_keywords` list within each page, then occurrence position ascending.
The 25-entry truncation is a single global cap applied to the full ordered
generation, not a per-page or per-keyword cap. -/
theorem C1_evidence_order_global_cap :
    (∀ (ps kws : List Str) (window : Nat),
      find_evidence ps kws window = (evidenceOrdered ps kws window).take 25) ∧
    (∀ raw, evidence raw = (evidenceOrdered (pages raw) (matched_keywords raw) 80).take 25) :=
  ⟨find_evidence_eq_take,
   fun raw => find_evidence_eq_take (pages raw) (matched_keywords raw) 80⟩

/-- C2: if zero targets are detected, the response's target list is the fixed
three-element fallback (the first three catalog labels in declaration order)
and `fallback_mode` is set, while `matched_keywords` and `evidence` are still
the true (empty) match results — fallback substitutes only labels. -/
theorem C2_fallback_substitution (raw : List (Option Str)) (h : found_targets0 raw = []) :
    found_targets raw = [target_carbon, target_renew, target_div] ∧
    fallback_mode raw = true ∧
    matched_keywords raw = [] ∧
    evidence raw = [] := by
  refine ⟨?_, ?_, matched_keywords_eq_nil h, evidence_eq_nil h⟩
  · unfold found_targets
    rw [h]
    rfl
  · unfold fallback_mode
    rw [h]
    rfl

theorem C2_fallback_substitution_witness :
    found_targets exNoMatch = [target_carbon, target_renew, target_div] ∧
    fallback_mode exNoMatch = true ∧
    matched_keywords exNoMatch = [] ∧
    evidence exNoMatch = [] :=
  C2_fallback_substitution exNoMatch (by decide)

/-- C3: a family is matched exactly when one of its member keywords occurs as
a substring of the case-folded full text (`pyIn` is the substring test); the
detected target labels are the labels of the matched catalog families in
declaration order; the keyword accumulator collects all member keywords of
every matched family; and the returned `matched_keywords` is the
lexicographically sorted, duplicate-free list with exactly the accumulated
keywords as members. -/
theorem C3_family_matcher :
    (∀ k hay : Str, pyIn k hay = true ↔ k <:+: hay) ∧
    (∀ tl : Str, matcherTargets tl =
      (catalog.filter (fun fam => anyIn fam.kws tl)).map (fun fam => fam.label)) ∧
    (∀ tl : Str, matcherAccum tl =
      (catalog.filter (fun fam => anyIn fam.kws tl)).flatMap (fun fam => fam.kws)) ∧
    (∀ raw, found_targets0 raw =
      (catalog.filter (fun fam => anyIn fam.kws (pyLower (full_text raw)))).map
        (fun fam => fam.label)) ∧
    (∀ raw, (∀ k, k ∈ matched_keywords raw ↔ k ∈ matcherAccum (text_lower raw)) ∧
      List.Pairwise (fun a b => strLt a b = true) (matched_keywords raw) ∧
      (matched_keywords raw).Nodup) :=
  ⟨fun _ _ => pyIn_iff_substring, matcherTargets_catalog, matcherAccum_catalog,
   fun raw => matcherTargets_catalog (text_lower raw),
   fun raw => ⟨fun _ => mem_matched_keywords, (matched_sorted_nodup raw).1,
     (matched_sorted_nodup raw).2⟩⟩

/-- C4: the confidence equals `min(100, round(coverage*70 + fm*10 + td*5))`
where `fm` is the count of truly matched families (equal to the code's
membership-based count, and `0` under fallback) and `td` is the length of the
final target list (3 under fallback); in the no-match case the score is
`min(100, round(coverage*70 + 15))`. -/
theorem C4_confidence_formula :
    (∀ raw, confidence raw =
      min 100 (pyRound (coverage raw * 70 + (trueFamilies (text_lower raw) : ℚ) * 10 +
        ((found_targets raw).length : ℚ) * 5))) ∧
    (∀ raw, found_targets0 raw = [] →
      confidence raw = min 100 (pyRound (coverage raw * 70 + 15))) := by
  constructor
  · intro raw
    unfold confidence confScore
    rw [families_matched_eq_trueFamilies]
  · intro raw h
    have hm : matched_keywords raw = [] := matched_keywords_eq_nil h
    have hfm : families_matched raw = 0 := by
      unfold families_matched
      rw [hm]
      decide
    have hlen : (found_targets raw).length = 3 := by
      unfold found_targets
      rw [h]
      rfl
    unfold confidence confScore
    rw [hfm, hlen]
    have harg : coverage raw * 70 + ((0 : ℕ) : ℚ) * 10 + ((3 : ℕ) : ℚ) * 5 =
        coverage raw * 70 + 15 := by
      push_cast
      ring
    rw [harg]

theorem C4_confidence_formula_witness :
    found_targets0 exNoMatch = [] ∧
    confidence exNoMatch = min 100 (pyRound (coverage exNoMatch * 70 + 15)) :=
  ⟨by decide, C4_confidence_formula.2 exNoMatch (by decide)⟩

/-- C5: for any input with at least one page, `pages_failed` counts the pages
whose decode raised, `parse_success_pct` and `coverage_pct` follow the stated
rounded formulas, `pages_with_text` counts pages with at least 40 characters
after stripping, and `text_extracted` is `coverage_pct > 0`; moreover
`text_extracted` is not the same boolean as `pages_failed == 0`: on a one-page
document with empty text they differ. -/
theorem C5_coverage_metrics :
    (∀ raw, 0 < total_pages raw →
      page_errors raw = raw.countP (fun r => r.isNone) ∧
      parse_success_pct raw =
        pyRound1 ((((total_pages raw : ℚ) - (page_errors raw : ℚ)) / (total_pages raw : ℚ)) * 100) ∧
      pages_with_text raw = (pages raw).countP (fun t => decide (40 ≤ (pyStrip t).length)) ∧
      coverage_pct raw =
        pyRound1 (((pages_with_text raw : ℚ) / (total_pages raw : ℚ)) * 100) ∧
      text_extracted raw = decide (0 < coverage_pct raw)) ∧
    (text_extracted exEmptyPage = false ∧ page_errors exEmptyPage = 0) := by
  constructor
  · intro raw h
    refine ⟨page_errors_eq_countP raw, ?_, rfl, ?_, rfl⟩
    · unfold parse_success_pct
      rw [if_pos (by omega)]
    · unfold coverage_pct
      rw [if_pos (by omega)]
  · constructor
    · have h1 : pages_with_text exEmptyPage = 0 := by decide
      have h2 : total_pages exEmptyPage = 1 := by decide
      have hcov : coverage_pct exEmptyPage = 0 := by
        unfold coverage_pct
        rw [h1, h2, if_pos (by norm_num)]
        rw [show (((0 : ℕ) : ℚ) / ((1 : ℕ) : ℚ)) * 100 = 0 by norm_num]
        exact pyRound1_zero
      unfold text_extracted
      rw [hcov]
      simp
    · rfl

theorem C5_coverage_metrics_witness :
    0 < total_pages exEmptyPage ∧
    (page_errors exEmptyPage = exEmptyPage.countP (fun r => r.isNone) ∧
      parse_success_pct exEmptyPage =
        pyRound1 ((((total_pages exEmptyPage : ℚ) - (page_errors exEmptyPage : ℚ)) /
          (total_pages exEmptyPage : ℚ)) * 100) ∧
      pages_with_text exEmptyPage =
        (pages exEmptyPage).countP (fun t => decide (40 ≤ (pyStrip t).length)) ∧
      coverage_pct exEmptyPage =
        pyRound1 (((pages_with_text exEmptyPage : ℚ) / (total_pages exEmptyPage : ℚ)) * 100) ∧
      text_extracted exEmptyPage = decide (0 < coverage_pct exEmptyPage)) :=
  ⟨by decide, C5_coverage_metrics.1 exEmptyPage (by decide)⟩

/-- C6: the evidence locator skips pages whose trimmed text is empty; for the
remaining pages it scans each keyword over the case-folded page text in a
single non-overlapping pass, each search resuming at the previous match's end
(the `occsFrom` recurrence, `pyFind` returning the least occurrence at or
after `start`); every occurrence at offset `idx` yields the entry with the
keyword, 1-based page number, and the snippet sliced from the original-case
text over `[idx - window, min(len, idx + len(kw) + window))` with newlines
replaced by spaces and whitespace stripped; `analyze_loan` uses the default
window of 80. -/
theorem C6_evidence_locator :
    (∀ (ps kws : List Str) (window : Nat),
      find_evidence ps kws window = (evidenceOrdered ps kws window).take 25) ∧
    (∀ (ps kws : List Str) (window : Nat),
      evidenceOrdered ps kws window = ps.enum.flatMap (fun pt =>
        if (pyStrip (pyLower pt.2)).isEmpty then []
        else kws.flatMap (fun kw =>
          (occsFrom (pyLower pt.2) kw 0).map (mkEntry pt.2 kw window pt.1)))) ∧
    (∀ (text kw : Str) (window pi idx : Nat),
      mkEntry text kw window pi idx =
        ⟨kw, pi + 1, pyStrip (pyReplaceNL (pySlice text (idx - window)
          (min text.length (idx + kw.length + window))))⟩) ∧
    (∀ (hay kw : Str) (start i : Nat), kw ≠ [] →
      (pyFind hay kw start = some i ↔
        start ≤ i ∧ occursAt hay kw i = true ∧
          ∀ j, start ≤ j → j < i → occursAt hay kw j = false)) ∧
    (∀ (low kw : Str) (start : Nat), kw ≠ [] →
      occsFrom low kw start =
        match pyFind low kw start with
        | none => []
        | some idx => idx :: occsFrom low kw (idx + kw.length)) ∧
    (∀ raw, evidence raw = find_evidence (pages raw) (matched_keywords raw) 80) :=
  ⟨find_evidence_eq_take,
   fun _ _ _ => rfl,
   fun _ _ _ _ _ => rfl,
   fun _ _ _ _ hk => pyFind_eq_some_iff hk,
   fun _ _ start hk => occsFrom_unfold hk start,
   fun _ => rfl⟩

theorem C6_evidence_locator_witness :
    chars "ab" ≠ [] ∧
    (pyFind (chars "xabab") (chars "ab") 2 = some 3 ↔
      2 ≤ 3 ∧ occursAt (chars "xabab") (chars "ab") 3 = true ∧
        ∀ j, 2 ≤ j → j < 3 → occursAt (chars "xabab") (chars "ab") j = false) ∧
    occsFrom (chars "xabab") (chars "ab") 0 =
      (match pyFind (chars "xabab") (chars "ab") 0 with
        | none => []
        | some idx => idx :: occsFrom (chars "xabab") (chars "ab") (idx + (chars "ab").length)) :=
  ⟨by decide,
   C6_evidence_locator.2.2.2.1 (chars "xabab") (chars "ab") 2 3 (by decide),
   C6_evidence_locator.2.2.2.2.1 (chars "xabab") (chars "ab") 0 (by decide)⟩

/-- C7: a zero-page input degrades gracefully: both percentages are `0` (the
guarded `else` branches of the embedded definitions, mirroring the
`if total_pages` guards that make the dividing branch unreachable), and the
unrounded coverage fraction is `0` as well. -/
theorem C7_zero_pages_graceful (raw : List (Option Str)) (h : total_pages raw = 0) :
    coverage_pct raw = 0 ∧ parse_success_pct raw = 0 ∧ coverage raw = 0 := by
  unfold coverage_pct parse_success_pct coverage
  simp [h]

theorem C7_zero_pages_graceful_witness :
    coverage_pct [] = 0 ∧ parse_success_pct [] = 0 ∧ coverage [] = 0 :=
  C7_zero_pages_graceful [] (by decide)

/-- C8: the confidence score is monotonically non-decreasing in coverage and
in the family-match count (the other inputs held fixed), and on every input
the response's confidence is an integer in `[0, 100]`. -/
theorem C8_confidence_monotone :
    (∀ (c c' : ℚ) (fm td : Nat), c ≤ c' → confScore c fm td ≤ confScore c' fm td) ∧
    (∀ (c : ℚ) (fm fm' td : Nat), fm ≤ fm' → confScore c fm td ≤ confScore c fm' td) ∧
    (∀ raw, confidence raw =
        confScore (coverage raw) (families_matched raw) (found_targets raw).length ∧
      0 ≤ confidence raw ∧ confidence raw ≤ 100) := by
  refine ⟨fun c c' fm td h => confScore_mono_cov fm td h,
    fun c fm fm' td h => confScore_mono_fm c td h,
    fun raw => ⟨rfl, ?_, ?_⟩⟩
  · exact confScore_nonneg (coverage_nonneg raw)
  · exact confScore_le_100 _ _ _

theorem C8_confidence_monotone_witness :
    (0 : ℚ) ≤ 1 ∧ confScore 0 2 2 ≤ confScore 1 2 2 ∧ confScore 0 1 3 ≤ confScore 0 2 3 :=
  ⟨zero_le_one, C8_confidence_monotone.1 0 1 2 2 zero_le_one,
   C8_confidence_monotone.2.1 0 1 2 3 (by decide)⟩

/-- C9: every response satisfies `pages_with_text ≤ pages_total`,
`pages_failed ≤ pages_total`, both percentages in `[0, 100]`,
`len(evidence) ≤ 25`, and every matched keyword belongs to the union of the
member keywords of the four fixed catalog families. -/
theorem C9_response_invariants (raw : List (Option Str)) :
    pages_with_text raw ≤ total_pages raw ∧
    page_errors raw ≤ total_pages raw ∧
    (0 ≤ coverage_pct raw ∧ coverage_pct raw ≤ 100) ∧
    (0 ≤ parse_success_pct raw ∧ parse_success_pct raw ≤ 100) ∧
    (evidence raw).length ≤ 25 ∧
    (∀ k, k ∈ matched_keywords raw → k ∈ kwAll) :=
  ⟨pages_with_text_le raw, page_errors_le raw, coverage_pct_bounds raw,
   parse_success_pct_bounds raw, evidence_length_le raw,
   fun _ hk => mem_kwAll_of_accum (mem_matched_keywords.mp hk)⟩

theorem C9_response_invariants_witness :
    chars "carbon" ∈ matched_keywords exMatch ∧ chars "carbon" ∈ kwAll :=
  ⟨by decide, (C9_response_invariants exMatch).2.2.2.2.2 (chars "carbon") (by decide)⟩

/-- C10: `fallback_mode` is false exactly when the evidence list is nonempty:
any truly matched family is witnessed by a keyword hit inside a single page
(no catalog keyword contains a newline, so a hit in the joined text lies
within one page, whose stripped text is then nonempty), which produces at
least one evidence entry; conversely under fallback the matched-keyword list
and evidence are empty and `keyword_hits = 0`. -/
theorem C10_fallback_iff_evidence (raw : List (Option Str)) :
    ((fallback_mode raw = false) ↔ evidence raw ≠ []) ∧
    (fallback_mode raw = true →
      matched_keywords raw = [] ∧ evidence raw = [] ∧ keyword_hits raw = 0) := by
  have hsecond : fallback_mode raw = true →
      matched_keywords raw = [] ∧ evidence raw = [] ∧ keyword_hits raw = 0 := by
    intro hfb
    unfold fallback_mode at hfb
    have h0 : found_targets0 raw = [] := List.isEmpty_iff.mp hfb
    refine ⟨matched_keywords_eq_nil h0, evidence_eq_nil h0, ?_⟩
    unfold keyword_hits
    rw [matched_keywords_eq_nil h0]
    rfl
  refine ⟨⟨?_, ?_⟩, hsecond⟩
  · intro hfb
    have hne : found_targets0 raw ≠ [] := by
      intro hnil
      unfold fallback_mode at hfb
      rw [hnil] at hfb
      exact absurd hfb (by decide)
    have hex : ∃ fam ∈ catalog, anyIn fam.kws (text_lower raw) = true := by
      by_cases h1 : anyIn kw_carbon (text_lower raw) = true
      · exact ⟨⟨target_carbon, kw_carbon⟩, by simp [catalog], h1⟩
      by_cases h2 : anyIn kw_renew (text_lower raw) = true
      · exact ⟨⟨target_renew, kw_renew⟩, by simp [catalog], h2⟩
      by_cases h3 : anyIn kw_div (text_lower raw) = true
      · exact ⟨⟨target_div, kw_div⟩, by simp [catalog], h3⟩
      by_cases h4 : anyIn kw_water (text_lower raw) = true
      · exact ⟨⟨target_water, kw_water⟩, by simp [catalog], h4⟩
      exact absurd ((matcherTargets_eq_nil_iff (text_lower raw)).mpr
        ⟨Bool.eq_false_iff.mpr h1, Bool.eq_false_iff.mpr h2,
         Bool.eq_false_iff.mpr h3, Bool.eq_false_iff.mpr h4⟩) hne
    obtain ⟨fam, hfam, hany⟩ := hex
    obtain ⟨k, hk_mem, hk_in⟩ := List.any_eq_true.mp hany
    have hk_all : k ∈ kwAll := catalog_kws_sub fam hfam k hk_mem
    obtain ⟨hk_ne, hk_nl, c, hc_mem, hc_ws⟩ := kwAll_props k hk_all
    have hinf : k <:+: text_lower raw := pyIn_iff_substring.mp hk_in
    have hjoin : text_lower raw = pyJoin ((pages raw).map pyLower) := by
      unfold text_lower full_text
      exact pyLower_pyJoin _
    rw [hjoin] at hinf
    obtain ⟨lp, hlp_mem, hlp_inf⟩ := infix_pyJoin hk_ne hk_nl _ hinf
    obtain ⟨text, htext_mem, rfl⟩ := List.mem_map.mp hlp_mem
    have hc_low : c ∈ pyLower text := hlp_inf.subset hc_mem
    have hstrip : pyStrip (pyLower text) ≠ [] := pyStrip_ne_nil hc_low hc_ws
    have hk_matched : k ∈ matched_keywords raw :=
      mem_matched_keywords.mpr (mem_matcherAccum_of_family hfam hany hk_mem)
    have hk_page : pyIn k (pyLower text) = true := pyIn_iff_substring.mpr hlp_inf
    have hord := @evidenceOrdered_ne_nil (pages raw) (matched_keywords raw) text k 80
      htext_mem hstrip hk_matched hk_page
    unfold evidence
    rw [find_evidence_eq_take]
    intro htake
    rcases List.take_eq_nil_iff.mp htake with h25 | hnil
    · exact absurd h25 (by decide)
    · exact hord hnil
  · intro hev
    cases hfb : fallback_mode raw with
    | false => rfl
    | true => exact absurd (hsecond hfb).2.1 hev

theorem C10_fallback_iff_evidence_witness :
    (matched_keywords exNoMatch = [] ∧ evidence exNoMatch = [] ∧ keyword_hits exNoMatch = 0) ∧
    evidence exMatch ≠ [] :=
  ⟨(C10_fallback_iff_evidence exNoMatch).2 (by decide),
   (C10_fallback_iff_evidence exMatch).1.mp (by decide)⟩

end ESG
